import Mathlib

/-!
Verification of the `CatsTrie` autocomplete engine (`src/Trie.py`).

A sentence is a string of lowercase letters, modelled as a `List (Fin 26)`
(letter `'a' + i` is modelled as `i : Fin 26`).  A trie node holds a 27-slot
child array (`link`), slot `0` being the end-of-sentence terminator and slot
`i + 1` the letter `i`, together with the `frequency` and
`best_sub_frequency` counters of the Python `Node` class.  Python's `None`
entries of the child array are modelled by the dedicated constructor
`Node.nil`, so `link : Fin 27 → Node` plays the role of the Python list of
27 optional child references.
-/

/-- A lowercase letter: `⟨i, _⟩` stands for the character `chr (97 + i)`. -/
abbrev Letter := Fin 26

/-- A sentence / prompt: a string of lowercase letters. -/
abbrev Word := List Letter

/-- Trie vertex, after `class Node` (`src/Trie.py`, lines 1-16).
`nil` models a `None` entry of a parent's `link` array; `node link f b`
models an actual `Node` object with child array `link`, `frequency = f` and
`best_sub_frequency = b`. -/
inductive Node where
  | nil : Node
  | node (link : Fin 27 → Node) (frequency : Nat) (best_sub_frequency : Nat) : Node

namespace Node

/-- `Node.__init__`: all 27 children absent, both counters zero. -/
def fresh : Node := Node.node (fun _ => Node.nil) 0 0

/-- Whether this child slot is Python's `None`. -/
def isNil : Node → Bool
  | nil => true
  | node _ _ _ => false

/-- The `frequency` attribute (`0` on `nil`, which Python never reads). -/
def freqField : Node → Nat
  | nil => 0
  | node _ f _ => f

/-- The `best_sub_frequency` attribute (`0` on `nil`, which Python never reads). -/
def bestField : Node → Nat
  | nil => 0
  | node _ _ b => b

/-- Read the child array (`n.link[i]`); a `nil` node has no children. -/
def getLink : Node → Fin 27 → Node
  | nil, _ => nil
  | node l _ _, i => l i

/-- The `best_sub_frequency` attribute as an optional value: `none` exactly
when the slot holds Python's `None`. -/
def bestOpt : Node → Option Nat
  | nil => none
  | node _ _ b => some b

/-- The `frequency` attribute as an optional value: `none` exactly when the
slot holds Python's `None`. -/
def freqOpt : Node → Option Nat
  | nil => none
  | node _ f _ => some f

/-- The pattern `if current.link[i] is None: current.link[i] = Node()`:
replace an absent child by a default-constructed node. -/
def orFresh : Node → Node
  | nil => fresh
  | n => n

end Node

/-- One step of the best-child scan of `autoCompleteAux`
(`src/Trie.py`, lines 106-110): given the accumulator
`(max_frequency, chosen index)` and the `best_sub_frequency` of the slot
being examined (`none` when the slot is `None`), skip absent children and
replace the champion only on a strictly greater aggregate. -/
def scanStep (b : Fin 26 → Option Nat) (acc : Int × Option (Fin 26)) (i : Fin 26) :
    Int × Option (Fin 26) :=
  match b i with
  | none => acc
  | some v => if (v : Int) > acc.1 then ((v : Int), some i) else acc

/-- The `for i in range(1, 27)` loop of `autoCompleteAux`
(`src/Trie.py`, lines 102-110): ascending scan of the letter slots starting
from `max_frequency = -1` and no chosen child.  `b i` is the
`best_sub_frequency` of letter slot `i + 1` (`none` when that slot is
`None`).  The Python code also remembers `best_sub_node`; since it always
equals `current.link[index]`, only the index is recorded here. -/
def bestScan (b : Fin 26 → Option Nat) : Int × Option (Fin 26) :=
  (List.finRange 26).foldl (scanStep b) (-1, none)

/-- `CatsTrie.autoCompleteAux` (`src/Trie.py`, lines 77-124).  The
`max_frequency` parameter is reassigned to `-1` by the Python body before
any read (line 102), hence ignored here.  The `nil` case is unreachable
from the real entry points (Python would raise on `None`). -/
def autoCompleteAux : Node → Int → Word → Option Word
  | Node.nil, _, _ => none
  | Node.node link _ _, _, word =>
    if (List.finRange 26).all (fun i => (link i.succ).isNil) then
      some word
    else
      let scan := bestScan (fun i => (link i.succ).bestOpt)
      let stop := match (link 0).freqOpt with
        | none => false
        | some tf => (tf : Int) ≥ scan.1
      if stop then
        some word
      else
        match scan.2 with
        | some j => autoCompleteAux (link j.succ) scan.1 (word ++ [j])
        | none => none

/-- `CatsTrie.findNode` (`src/Trie.py`, lines 126-151): walk the prompt's
letter slots from `current`, failing on an absent slot. -/
def findNode : Node → Word → Option Node
  | current, [] => some current
  | current, c :: rest =>
    match current.getLink c.succ with
    | Node.nil => none
    | child => findNode child rest

/-- `CatsTrie.autoComplete` (`src/Trie.py`, lines 47-75): locate the
prompt's node, then run the greedy descent with `max_frequency = -1`. -/
def autoComplete (root : Node) (prompt : Word) : Option Word :=
  match findNode root prompt with
  | none => none
  | some n => autoCompleteAux n (-1) prompt

/-- `CatsTrie.insert_recur_aux` (`src/Trie.py`, lines 170-219).  Returns the
updated subtree together with the Python return value.  The two `nil`
fallbacks are unreachable: the function is only ever applied to actual
nodes (Python would raise on `None`), and on an actual node it returns an
actual node. -/
def insert_recur_aux : Node → Word → Node × Nat
  | Node.nil, _ => (Node.nil, 0)
  | Node.node link f b, [] =>
    match (link 0).orFresh with
    | Node.nil => (Node.nil, 0)
    | Node.node tl tf tb =>
      let tf' := tf + 1
      let tb' := if tf' > tb then tf' else tb
      (Node.node (Function.update link 0 (Node.node tl tf' tb')) f b, tb')
  | Node.node link f b, c :: rest =>
    match insert_recur_aux (link c.succ).orFresh rest with
    | (Node.nil, _) => (Node.nil, 0)
    | (Node.node cl cf cb, sub) =>
      let cb' := if sub > cb then sub else cb
      (Node.node (Function.update link c.succ (Node.node cl cf cb')) f b, cb')

/-- `CatsTrie.insert_recur` (`src/Trie.py`, lines 153-168): run the
recursive insertion from the root; the Python function discards the
returned frequency and keeps the (mutated) root. -/
def insert_recur (root : Node) (key : Word) : Node :=
  (insert_recur_aux root key).1

/-- `CatsTrie.__init__` (`src/Trie.py`, lines 20-45): start from a fresh
root and insert every sentence in order. -/
def catsTrie (sentences : List Word) : Node :=
  sentences.foldl insert_recur Node.fresh

namespace Node

/-- Specification-side aggregate: the maximum of the `frequency` fields over
all nodes of the subtree (0 when the subtree is empty).  In a constructed
trie only terminator children carry a nonzero `frequency`, so this is
exactly "the maximum end-frequency over all terminator nodes in the
subtree" of the specification. -/
def maxFreq : Node → Nat
  | nil => 0
  | node link f _ => max f (Finset.univ.sup fun i : Fin 27 => (link i).maxFreq)

/-- Specification-side end-frequency of a word inside a subtree: follow the
word's letter path and read the `frequency` of the terminator child at
its destination (0 whenever the path or the terminator is absent). -/
def freqOf : Node → Word → Nat
  | nil, _ => 0
  | node link _ _, [] => (link 0).freqField
  | node link _ _, c :: rest => (link c.succ).freqOf rest

/-- Structural invariant of a node sitting in a terminator slot of a
constructed trie: `best_sub_frequency` equals its own `frequency`, at least
one sentence ends here, and it has no children. -/
def termInv : Node → Prop
  | nil => True
  | node link f b => b = f ∧ 1 ≤ f ∧ ∀ i : Fin 27, (link i).isNil = true

/-- Structural invariant of a node sitting in a letter slot of a constructed
trie: its aggregate is accurate and positive, its `frequency` is untouched,
its terminator child satisfies `termInv` and its letter children satisfy
`letterInv` recursively. -/
def letterInv : Node → Prop
  | nil => True
  | node link f b =>
      b = maxFreq (node link f b) ∧ 1 ≤ b ∧ f = 0 ∧
      termInv (link 0) ∧ ∀ i : Fin 26, letterInv (link i.succ)

/-- Invariant of the children of a node: terminator child as in `termInv`,
letter children as in `letterInv`.  This is what every node on a query path
of a constructed trie satisfies — including the root, whose own
`best_sub_frequency` is never written by the insertion routine. -/
def innerInv (n : Node) : Prop :=
  termInv (n.getLink 0) ∧ ∀ i : Fin 26, letterInv (n.getLink i.succ)

/-- Aggregate correctness of a whole subtree: every node in it (including
its top) has `best_sub_frequency` equal to the maximum end-frequency over
the terminator nodes of its own subtree. -/
def aggAll : Node → Prop
  | nil => True
  | node link f b => b = maxFreq (node link f b) ∧ ∀ i : Fin 27, aggAll (link i)

end Node

/-- Invariant of the root of a constructed trie: it is an actual node whose
two counters still have their initial value 0, and whose children satisfy
the structural invariants. -/
def rootInv (n : Node) : Prop :=
  n.isNil = false ∧ n.freqField = 0 ∧ n.bestField = 0 ∧ Node.innerInv n
/-- Postcondition of folding `scanStep b` over an ascending index list `l`
starting from accumulator `acc`, with result `r`: the champion's aggregate
equals the running maximum, a `none` champion means nothing was seen, every
aggregate in `l` is bounded by the maximum, the maximum only grows, the
champion comes from `acc` or from `l`, a champion change strictly increases
the maximum, and indices of `l` before the champion have strictly smaller
aggregates. -/
def ScanPost (b : Fin 26 → Option Nat) (l : List (Fin 26))
    (acc r : Int × Option (Fin 26)) : Prop :=
  (∀ j, r.2 = some j → ∃ v, b j = some v ∧ (v : Int) = r.1) ∧
  (r.2 = none → r = acc ∧ ∀ i ∈ l, b i = none) ∧
  (∀ i ∈ l, ∀ v, b i = some v → (v : Int) ≤ r.1) ∧
  acc.1 ≤ r.1 ∧
  (∀ j, r.2 = some j → acc.2 = some j ∨ j ∈ l) ∧
  (∀ j, r.2 = some j → acc.2 = some j ∨ acc.1 < r.1) ∧
  (∀ j, r.2 = some j → ∀ i ∈ l, i < j → ∀ v, b i = some v → (v : Int) < r.1)

/-- The maximum `best_sub_frequency` among the letter children (an absent
child counts as 0). -/
def stepM (n : Node) : Nat :=
  Finset.univ.sup fun i : Fin 26 => (n.getLink i.succ).bestField

/-- One-step contract of the greedy descent at a node with at least one
letter child: if a terminator child exists whose end-frequency reaches the
maximum child aggregate, the descent stops and returns the accumulated
word; otherwise it continues into the child with the smallest letter index
among those attaining the maximum, and does not return the accumulated
word itself. -/
def StepSpec (n : Node) (m : Int) (w : Word) : Prop :=
  ((n.getLink 0).isNil = false ∧ stepM n ≤ (n.getLink 0).freqField →
    autoCompleteAux n m w = some w) ∧
  ((n.getLink 0).isNil = true ∨ (n.getLink 0).freqField < stepM n →
    ∃ j : Fin 26,
      (n.getLink j.succ).isNil = false ∧
      (n.getLink j.succ).bestField = stepM n ∧
      (∀ k : Fin 26, k < j → (n.getLink k.succ).isNil = true ∨
        (n.getLink k.succ).bestField < stepM n) ∧
      (∀ k : Fin 26, (n.getLink k.succ).bestField ≤ stepM n) ∧
      autoCompleteAux n m w =
        autoCompleteAux (n.getLink j.succ) ((stepM n : Nat) : Int) (w ++ [j]) ∧
      autoCompleteAux n m w ≠ some w)

namespace Node

/-- Height of a trie node (0 for an absent child). -/
def depth : Node → Nat
  | nil => 0
  | node l _ _ => 1 + Finset.univ.sup fun i : Fin 27 => (l i).depth

end Node

/-- `insert_recur_aux` with an explicit recursion budget: the non-recursive
base work is unchanged, and each recursive step consumes one unit of fuel;
`none` reports fuel exhaustion. -/
def insertAuxFuel : Nat → Node → Word → Option (Node × Nat)
  | _, n, [] => some (insert_recur_aux n [])
  | 0, _, _ :: _ => none
  | _ + 1, Node.nil, _ :: _ => some (Node.nil, 0)
  | fuel + 1, Node.node link f b, c :: rest =>
    match insertAuxFuel fuel (link c.succ).orFresh rest with
    | none => none
    | some (Node.nil, _) => some (Node.nil, 0)
    | some (Node.node cl cf cb, sub) =>
      let cb' := if sub > cb then sub else cb
      some (Node.node (Function.update link c.succ (Node.node cl cf cb')) f b, cb')

/-- `autoCompleteAux` with an explicit recursion budget: each descent step
consumes one unit of fuel, and `none` reports fuel exhaustion. -/
def autoCompleteAuxFuel : Nat → Node → Int → Word → Option (Option Word)
  | _, Node.nil, _, _ => some none
  | 0, Node.node _ _ _, _, _ => none
  | fuel + 1, Node.node link _ _, _, word =>
    if (List.finRange 26).all (fun i => (link i.succ).isNil) then
      some (some word)
    else
      let scan := bestScan (fun i => (link i.succ).bestOpt)
      let stop := match (link 0).freqOpt with
        | none => false
        | some tf => (tf : Int) ≥ scan.1
      if stop then
        some (some word)
      else
        match scan.2 with
        | some j => autoCompleteAuxFuel fuel (link j.succ) scan.1 (word ++ [j])
        | none => some none

namespace Node

/-- Write a child slot (`n.link[i] = c`). -/
def setLink : Node → Fin 27 → Node → Node
  | nil, _, _ => nil
  | node l f b, i, c => node (Function.update l i c) f b

end Node

/-- `findNode` in state-passing form: alongside the optional located node,
the traversed tree is handed back, each visited child written back into
its slot.  The Python body contains no assignment to any node attribute,
so the handed-back tree is provably the input tree. -/
def findNodeRun : Node → Word → Option Node × Node
  | n, [] => (some n, n)
  | n, c :: rest =>
    match n.getLink c.succ with
    | Node.nil => (none, n)
    | child =>
      let r := findNodeRun child rest
      (r.1, n.setLink c.succ r.2)

/-- `autoCompleteAux` in state-passing form: alongside the result, the
visited subtree is handed back, the visited child written back into its
slot. -/
def autoCompleteAuxRun : Node → Int → Word → Option Word × Node
  | Node.nil, _, _ => (none, Node.nil)
  | Node.node link f b, _, word =>
    if (List.finRange 26).all (fun i => (link i.succ).isNil) then
      (some word, Node.node link f b)
    else
      let scan := bestScan (fun i => (link i.succ).bestOpt)
      let stop := match (link 0).freqOpt with
        | none => false
        | some tf => (tf : Int) ≥ scan.1
      if stop then
        (some word, Node.node link f b)
      else
        match scan.2 with
        | some j =>
          let r := autoCompleteAuxRun (link j.succ) scan.1 (word ++ [j])
          (r.1, Node.node (Function.update link j.succ r.2) f b)
        | none => (none, Node.node link f b)

/-- Write the node `m` back at the end of the path `p` (identity on an
absent path). -/
def updateAt : Node → Word → Node → Node
  | _, [], m => m
  | n, c :: rest, m =>
    match n.getLink c.succ with
    | Node.nil => n
    | child => n.setLink c.succ (updateAt child rest m)

/-- `autoComplete` in state-passing form: locate the prompt node, run the
descent on it, and hand back the tree with the descended subtree written
back along the prompt path. -/
def autoCompleteRun (root : Node) (prompt : Word) : Option Word × Node :=
  match findNodeRun root prompt with
  | (none, root2) => (none, root2)
  | (some n, root2) =>
    let r := autoCompleteAuxRun n (-1) prompt
    (r.1, updateAt root2 prompt r.2)

/-- The example corpus of `src/Trie.py` (lines 223-224):
`["abc","abazacy","dbcef","xzz","gdbc","abazacy","xyz","abazacy","dbcef","xyz","xxx","xzz"]`,
letters encoded as indices (`a = 0`, ..., `z = 25`). -/
def exampleSentences : List Word :=
  [[0, 1, 2], [0, 1, 0, 25, 0, 2, 24], [3, 1, 2, 4, 5], [23, 25, 25],
   [6, 3, 1, 2], [0, 1, 0, 25, 0, 2, 24], [23, 24, 25], [0, 1, 0, 25, 0, 2, 24],
   [3, 1, 2, 4, 5], [23, 24, 25], [23, 23, 23], [23, 25, 25]]

/-- The corpus `["a", "a", "aa"]` of specification example 4. -/
def tieSentences : List Word := [[0], [0], [0, 0]]


/-! ### Basic helper lemmas -/

theorem sup27_split (g : Fin 27 → Nat) :
    Finset.univ.sup g = max (g 0) (Finset.univ.sup fun i : Fin 26 => g i.succ) := by
  apply le_antisymm
  · refine Finset.sup_le fun i _ => ?_
    refine Fin.cases ?_ ?_ i
    · exact le_max_left _ _
    · intro j
      have h : g j.succ ≤ Finset.univ.sup fun i : Fin 26 => g i.succ :=
        Finset.le_sup_of_le (Finset.mem_univ j) le_rfl
      exact le_trans h (le_max_right _ _)
  · refine max_le ?_ ?_
    · exact Finset.le_sup (Finset.mem_univ 0)
    · refine Finset.sup_le fun j _ => ?_
      exact Finset.le_sup (Finset.mem_univ j.succ)

theorem sup_update_max (g : Fin 27 → Nat) (j : Fin 27) (r : Nat) :
    Finset.univ.sup (Function.update g j (max (g j) r)) = max (Finset.univ.sup g) r := by
  apply le_antisymm
  · refine Finset.sup_le fun i _ => ?_
    by_cases h : i = j
    · subst h
      rw [Function.update_same]
      have hg : g i ≤ Finset.univ.sup g := Finset.le_sup (Finset.mem_univ i)
      exact max_le (le_trans hg (le_max_left _ _)) (le_max_right _ _)
    · rw [Function.update_noteq h]
      have hg : g i ≤ Finset.univ.sup g := Finset.le_sup (Finset.mem_univ i)
      exact le_trans hg (le_max_left _ _)
  · refine max_le (Finset.sup_le fun i _ => ?_) ?_
    · have hup : Function.update g j (max (g j) r) i ≤
          Finset.univ.sup (Function.update g j (max (g j) r)) :=
        Finset.le_sup (Finset.mem_univ i)
      by_cases h : i = j
      · subst h
        rw [Function.update_same] at hup
        exact le_trans (le_max_left _ _) hup
      · rwa [Function.update_noteq h] at hup
    · have hup : Function.update g j (max (g j) r) j ≤
          Finset.univ.sup (Function.update g j (max (g j) r)) :=
        Finset.le_sup (Finset.mem_univ j)
      rw [Function.update_same] at hup
      exact le_trans (le_max_right _ _) hup

namespace Node

theorem maxFreq_node (l : Fin 27 → Node) (f b : Nat) :
    maxFreq (node l f b) = max f (Finset.univ.sup fun i : Fin 27 => (l i).maxFreq) := by
  simp [maxFreq]

theorem freqField_le_maxFreq (n : Node) : n.freqField ≤ n.maxFreq := by
  cases n with
  | nil => simp [freqField, maxFreq]
  | node l f b => simp [freqField, maxFreq_node]

theorem maxFreq_child_le (l : Fin 27 → Node) (f b : Nat) (i : Fin 27) :
    (l i).maxFreq ≤ maxFreq (node l f b) := by
  rw [maxFreq_node]
  have h : (l i).maxFreq ≤ Finset.univ.sup fun j : Fin 27 => (l j).maxFreq :=
    Finset.le_sup_of_le (Finset.mem_univ i) le_rfl
  exact le_trans h (le_max_right _ _)

theorem freqOf_le_maxFreq (w : Word) (n : Node) : n.freqOf w ≤ n.maxFreq := by
  induction w generalizing n with
  | nil =>
    cases n with
    | nil => simp [freqOf]
    | node l f b =>
      exact le_trans (freqField_le_maxFreq (l 0)) (maxFreq_child_le l f b 0)
  | cons c rest ih =>
    cases n with
    | nil => simp [freqOf]
    | node l f b =>
      exact le_trans (ih (l c.succ)) (maxFreq_child_le l f b c.succ)

theorem maxFreq_best_irrel (l : Fin 27 → Node) (f b b' : Nat) :
    maxFreq (node l f b) = maxFreq (node l f b') := by
  rw [maxFreq_node, maxFreq_node]

theorem freqOf_best_irrel (l : Fin 27 → Node) (f f' b b' : Nat) (w : Word) :
    freqOf (node l f b) w = freqOf (node l f' b') w := by
  cases w <;> simp [freqOf]

end Node

/-! ### Lexicographic order helpers -/

theorem lex_append_left_iff (p a b : Word) :
    List.Lex (· < ·) (p ++ a) (p ++ b) ↔ List.Lex (· < ·) a b := by
  induction p with
  | nil => simp
  | cons c rest ih => simpa [List.Lex.cons_iff] using ih

/-! ### Characterization of the best-child scan -/


theorem scan_foldl_spec (b : Fin 26 → Option Nat) :
    ∀ (l : List (Fin 26)) (acc : Int × Option (Fin 26)),
    l.Pairwise (· < ·) →
    (acc.2 = none → acc.1 = -1) →
    (∀ j, acc.2 = some j → (∃ v, b j = some v ∧ (v : Int) = acc.1) ∧ ∀ i ∈ l, j < i) →
    ScanPost b l acc (l.foldl (scanStep b) acc) := by
  intro l
  induction l with
  | nil =>
    intro acc _ _ hsome
    refine ⟨fun j hj => (hsome j hj).1, fun _ => ⟨rfl, by simp⟩, by simp, le_rfl,
      fun j hj => Or.inl hj, fun j hj => Or.inl hj, by simp⟩
  | cons i0 rest ih =>
    intro acc hpw hnone hsome
    rw [List.pairwise_cons] at hpw
    rcases hbi : b i0 with _ | v
    · -- absent child: the accumulator is unchanged
      have hstep : scanStep b acc i0 = acc := by simp [scanStep, hbi]
      rw [List.foldl_cons, hstep]
      obtain ⟨P1, P2, P3, P5, P4, P8, P6⟩ := ih acc hpw.2 hnone
        (fun j hj => ⟨(hsome j hj).1, fun i hi => (hsome j hj).2 i (List.mem_cons_of_mem _ hi)⟩)
      refine ⟨P1, ?_, ?_, P5, ?_, P8, ?_⟩
      · intro hr
        obtain ⟨hra, hall⟩ := P2 hr
        refine ⟨hra, fun i hi => ?_⟩
        rcases List.mem_cons.mp hi with h | h
        · exact h ▸ hbi
        · exact hall i h
      · intro i hi v hv
        rcases List.mem_cons.mp hi with h | h
        · rw [h, hbi] at hv; cases hv
        · exact P3 i h v hv
      · intro j hj
        rcases P4 j hj with h | h
        · exact Or.inl h
        · exact Or.inr (List.mem_cons_of_mem _ h)
      · intro j hj i hi hij v hv
        rcases List.mem_cons.mp hi with h | h
        · rw [h, hbi] at hv; cases hv
        · exact P6 j hj i h hij v hv
    · by_cases hv : (v : Int) > acc.1
      · -- strictly better child: it becomes the champion
        have hstep : scanStep b acc i0 = ((v : Int), some i0) := by
          simp [scanStep, hbi, hv]
        rw [List.foldl_cons, hstep]
        obtain ⟨P1, P2, P3, P5, P4, P8, P6⟩ := ih ((v : Int), some i0) hpw.2 (by simp)
          (by
            intro j hj
            simp only [Option.some.injEq] at hj
            subst hj
            exact ⟨⟨v, hbi, rfl⟩, fun i hi => hpw.1 i hi⟩)
        refine ⟨P1, ?_, ?_, ?_, ?_, ?_, ?_⟩
        · intro hr
          have := (P2 hr).1
          rw [this] at hr
          cases hr
        · intro i hi u hu
          rcases List.mem_cons.mp hi with h | h
          · rw [h, hbi] at hu
            cases hu
            exact P5
          · exact P3 i h u hu
        · exact le_trans (le_of_lt hv) P5
        · intro j hj
          rcases P4 j hj with h | h
          · simp only [Option.some.injEq] at h
            exact Or.inr (h ▸ List.mem_cons_self i0 rest)
          · exact Or.inr (List.mem_cons_of_mem _ h)
        · intro j hj
          exact Or.inr (lt_of_lt_of_le hv P5)
        · intro j hj i hi hij u hu
          rcases List.mem_cons.mp hi with h | h
          · subst h
            rw [hbi] at hu
            cases hu
            rcases P8 j hj with h8 | h8
            · simp only [Option.some.injEq] at h8
              exact absurd (h8 ▸ hij) (lt_irrefl _)
            · exact h8
          · exact P6 j hj i h hij u hu
      · -- not strictly better: the accumulator is unchanged and already champions
        have hstep : scanStep b acc i0 = acc := by simp [scanStep, hbi, hv]
        rw [List.foldl_cons, hstep]
        have hge : (v : Int) ≤ acc.1 := not_lt.mp hv
        obtain ⟨j0, hj0⟩ : ∃ j0, acc.2 = some j0 := by
          cases h2 : acc.2 with
          | none =>
            have h1 := hnone h2
            have : (0 : Int) ≤ (v : Int) := Int.natCast_nonneg v
            omega
          | some j0 => exact ⟨j0, rfl⟩
        obtain ⟨P1, P2, P3, P5, P4, P8, P6⟩ := ih acc hpw.2 hnone
          (fun j hj => ⟨(hsome j hj).1, fun i hi => (hsome j hj).2 i (List.mem_cons_of_mem _ hi)⟩)
        refine ⟨P1, ?_, ?_, P5, ?_, P8, ?_⟩
        · intro hr
          have := (P2 hr).1
          rw [this, hj0] at hr
          cases hr
        · intro i hi u hu
          rcases List.mem_cons.mp hi with h | h
          · rw [h, hbi] at hu
            cases hu
            exact le_trans hge P5
          · exact P3 i h u hu
        · intro j hj
          rcases P4 j hj with h | h
          · exact Or.inl h
          · exact Or.inr (List.mem_cons_of_mem _ h)
        · intro j hj i hi hij u hu
          rcases List.mem_cons.mp hi with h | h
          · subst h
            rw [hbi] at hu
            cases hu
            rcases P8 j hj with h8 | h8
            · rw [hj0] at h8
              simp only [Option.some.injEq] at h8
              have hj0i : j0 < i := (hsome j0 hj0).2 i (List.mem_cons_self i rest)
              exact absurd (h8 ▸ hij) (fun hc => absurd hj0i (lt_asymm hc))
            · exact lt_of_le_of_lt hge h8
          · exact P6 j hj i h hij u hu

theorem bestScan_spec (b : Fin 26 → Option Nat) :
    ScanPost b (List.finRange 26) (-1, none) (bestScan b) :=
  scan_foldl_spec b (List.finRange 26) (-1, none) (List.pairwise_lt_finRange 26)
    (fun _ => rfl) (by simp)

theorem bestScan_champion (b : Fin 26 → Option Nat) (j : Fin 26)
    (hj : (bestScan b).2 = some j) : ∃ v, b j = some v ∧ (v : Int) = (bestScan b).1 :=
  (bestScan_spec b).1 j hj

theorem bestScan_none_iff (b : Fin 26 → Option Nat) :
    (bestScan b).2 = none ↔ ∀ i, b i = none := by
  constructor
  · intro h i
    exact ((bestScan_spec b).2.1 h).2 i (List.mem_finRange i)
  · intro h
    cases hr : (bestScan b).2 with
    | none => rfl
    | some j =>
      obtain ⟨v, hv, _⟩ := bestScan_champion b j hr
      rw [h j] at hv
      cases hv

theorem bestScan_ub (b : Fin 26 → Option Nat) (i : Fin 26) (v : Nat)
    (hv : b i = some v) : (v : Int) ≤ (bestScan b).1 :=
  (bestScan_spec b).2.2.1 i (List.mem_finRange i) v hv

theorem bestScan_earlier_lt (b : Fin 26 → Option Nat) (j : Fin 26)
    (hj : (bestScan b).2 = some j) (i : Fin 26) (hij : i < j) (v : Nat)
    (hv : b i = some v) : (v : Int) < (bestScan b).1 :=
  (bestScan_spec b).2.2.2.2.2.2 j hj i (List.mem_finRange i) hij v hv

/-! ### Small structural lemmas -/

namespace Node

theorem eq_nil_of_isNil {n : Node} (h : n.isNil = true) : n = nil := by
  cases n with
  | nil => rfl
  | node l f b => simp [isNil] at h

theorem maxFreq_leaf (l : Fin 27 → Node) (f b : Nat)
    (h : ∀ i : Fin 27, (l i).isNil = true) : maxFreq (node l f b) = f := by
  rw [maxFreq_node]
  refine max_eq_left (Finset.sup_le fun i _ => ?_)
  rw [eq_nil_of_isNil (h i)]
  exact Nat.zero_le f

theorem freqOf_fresh (w : Word) : freqOf fresh w = 0 := by
  cases w <;> simp [fresh, freqOf, freqField]

theorem maxFreq_fresh : maxFreq fresh = 0 := by
  have h : maxFreq fresh = maxFreq (node (fun _ => nil) 0 0) := rfl
  rw [h, maxFreq_leaf]
  intro i
  simp [isNil]

theorem termInv_nil : termInv nil := trivial

theorem letterInv_nil : letterInv nil := trivial

theorem innerInv_node (l : Fin 27 → Node) (f b : Nat) :
    innerInv (node l f b) ↔ termInv (l 0) ∧ ∀ i : Fin 26, letterInv (l i.succ) := by
  simp [innerInv, getLink]

theorem letterInv_node (l : Fin 27 → Node) (f b : Nat) :
    letterInv (node l f b) ↔
      b = maxFreq (node l f b) ∧ 1 ≤ b ∧ f = 0 ∧
      termInv (l 0) ∧ ∀ i : Fin 26, letterInv (l i.succ) := by
  simp [letterInv]

theorem letterInv_innerInv {n : Node} (h : letterInv n) : innerInv n := by
  cases n with
  | nil => exact ⟨trivial, fun _ => trivial⟩
  | node l f b =>
    rw [letterInv_node] at h
    exact (innerInv_node l f b).mpr ⟨h.2.2.2.1, h.2.2.2.2⟩

theorem innerInv_fresh : innerInv fresh :=
  ⟨trivial, fun _ => trivial⟩

end Node

theorem update_comp (g : Node → Nat) (l : Fin 27 → Node) (j : Fin 27) (v : Node) :
    (fun i => g (Function.update l j v i)) = Function.update (fun i => g (l i)) j (g v) := by
  funext i
  by_cases h : i = j
  · subst h
    simp
  · simp [Function.update_noteq h]

theorem if_gt_eq_max (x y : Nat) : (if x > y then x else y) = max y x := by
  rcases le_or_lt x y with h | h
  · rw [if_neg (not_lt.mpr h), max_eq_left h]
  · rw [if_pos h, max_eq_right (le_of_lt h)]

/-! ### The insertion lemma -/

/-- Effect of one `insert_recur_aux` call on a node whose children satisfy
the structural invariants: the node's own counters are untouched, the
children invariants are preserved, the subtree aggregate becomes the max of
the old aggregate and the returned value, the returned value is positive,
and exactly the inserted word's end-frequency grows by one. -/
theorem insert_aux_spec :
    ∀ (key : Word) (l : Fin 27 → Node) (f b : Nat),
    Node.innerInv (Node.node l f b) →
    ∃ (l' : Fin 27 → Node) (ret : Nat),
      insert_recur_aux (Node.node l f b) key = (Node.node l' f b, ret) ∧
      Node.innerInv (Node.node l' f b) ∧
      Node.maxFreq (Node.node l' f b) = max (Node.maxFreq (Node.node l f b)) ret ∧
      1 ≤ ret ∧
      ∀ w, Node.freqOf (Node.node l' f b) w =
        Node.freqOf (Node.node l f b) w + (if w = key then 1 else 0) := by
  intro key
  induction key with
  | nil =>
    intro l f b hinv
    obtain ⟨hterm, hlet⟩ := (Node.innerInv_node l f b).mp hinv
    cases h0 : l 0 with
    | nil =>
      refine ⟨Function.update l 0 (Node.node (fun _ => Node.nil) 1 1), 1, ?_, ?_, ?_, le_rfl, ?_⟩
      · simp [insert_recur_aux, h0, Node.orFresh, Node.fresh]
      · refine (Node.innerInv_node _ f b).mpr ⟨?_, ?_⟩
        · rw [Function.update_same]
          exact ⟨rfl, le_rfl, fun i => rfl⟩
        · intro i
          rw [Function.update_noteq (Fin.succ_ne_zero i)]
          exact hlet i
      · rw [Node.maxFreq_node, Node.maxFreq_node, update_comp Node.maxFreq l 0]
        have hv : Node.maxFreq (Node.node (fun _ => Node.nil) 1 1) =
            max (Node.maxFreq (l 0)) 1 := by
          rw [h0]
          have : Node.maxFreq (Node.node (fun _ => Node.nil) 1 1) = 1 :=
            Node.maxFreq_leaf (fun _ => Node.nil) 1 1 fun i => rfl
          rw [this]
          rfl
        rw [hv, sup_update_max, Nat.max_assoc]
      · intro w
        cases w with
        | nil =>
          simp [Node.freqOf, Function.update_same, h0, Node.freqField]
        | cons d v =>
          simp [Node.freqOf, Function.update_noteq (Fin.succ_ne_zero d)]
    | node tl tf tb =>
      rw [h0] at hterm
      obtain ⟨htb, htf, htnil⟩ := hterm
      have hif : (if tf + 1 > tb then tf + 1 else tb) = tf + 1 := by
        rw [if_pos]
        omega
      refine ⟨Function.update l 0 (Node.node tl (tf + 1) (tf + 1)), tf + 1, ?_, ?_, ?_, ?_, ?_⟩
      · simp only [insert_recur_aux, h0, Node.orFresh, hif]
      · refine (Node.innerInv_node _ f b).mpr ⟨?_, ?_⟩
        · rw [Function.update_same]
          exact ⟨rfl, by omega, htnil⟩
        · intro i
          rw [Function.update_noteq (Fin.succ_ne_zero i)]
          exact hlet i
      · rw [Node.maxFreq_node, Node.maxFreq_node, update_comp Node.maxFreq l 0]
        have hv : Node.maxFreq (Node.node tl (tf + 1) (tf + 1)) =
            max (Node.maxFreq (l 0)) (tf + 1) := by
          rw [h0, Node.maxFreq_leaf tl tf tb htnil, Node.maxFreq_leaf tl (tf + 1) (tf + 1) htnil]
          omega
        rw [hv, sup_update_max, Nat.max_assoc]
      · omega
      · intro w
        cases w with
        | nil =>
          simp [Node.freqOf, Function.update_same, h0, Node.freqField]
        | cons d v =>
          simp [Node.freqOf, Function.update_noteq (Fin.succ_ne_zero d)]
  | cons c rest ih =>
    intro l f b hinv
    obtain ⟨hterm, hlet⟩ := (Node.innerInv_node l f b).mp hinv
    -- the child descended into, as explicit components
    obtain ⟨cl0, cf0, cb0, hch, hchinner, hchmax, hchfreq, hchf0⟩ :
        ∃ (cl0 : Fin 27 → Node) (cf0 cb0 : Nat),
          (l c.succ).orFresh = Node.node cl0 cf0 cb0 ∧
          Node.innerInv (Node.node cl0 cf0 cb0) ∧
          Node.maxFreq (Node.node cl0 cf0 cb0) = Node.maxFreq (l c.succ) ∧
          (∀ w, Node.freqOf (Node.node cl0 cf0 cb0) w = Node.freqOf (l c.succ) w) ∧
          cb0 = Node.maxFreq (l c.succ) := by
      cases h0 : l c.succ with
      | nil =>
        refine ⟨fun _ => Node.nil, 0, 0, rfl, Node.innerInv_fresh, ?_, ?_, ?_⟩
        · rw [Node.maxFreq_leaf (fun _ => Node.nil) 0 0 fun i => rfl]
          simp [Node.maxFreq]
        · intro w
          have h1 : Node.freqOf (Node.node (fun _ => Node.nil) 0 0) w = 0 :=
            Node.freqOf_fresh w
          rw [h1]
          simp [Node.freqOf]
        · simp [Node.maxFreq]
      | node cl cf cb =>
        have hl := hlet c
        rw [h0, Node.letterInv_node] at hl
        refine ⟨cl, cf, cb, by simp [Node.orFresh], ?_, rfl, fun w => rfl, hl.1⟩
        exact (Node.innerInv_node cl cf cb).mpr ⟨hl.2.2.2.1, hl.2.2.2.2⟩
    obtain ⟨cl', ret, heq, hinner', hmax', hret, hfreq'⟩ := ih cl0 cf0 cb0 hchinner
    have hcb' : (if ret > cb0 then ret else cb0) = max cb0 ret := if_gt_eq_max ret cb0
    refine ⟨Function.update l c.succ (Node.node cl' cf0 (max cb0 ret)), max cb0 ret,
      ?_, ?_, ?_, le_trans hret (le_max_right _ _), ?_⟩
    · simp only [insert_recur_aux, hch, heq, hcb']
    · refine (Node.innerInv_node _ f b).mpr ⟨?_, ?_⟩
      · rw [Function.update_noteq (Ne.symm (Fin.succ_ne_zero c))]
        exact hterm
      · intro i
        by_cases hic : i = c
        · subst hic
          rw [Function.update_same, Node.letterInv_node]
          obtain ⟨hterm', hlet'⟩ := (Node.innerInv_node cl' cf0 cb0).mp hinner'
          have hcf0 : cf0 = 0 := by
            cases h0 : l i.succ with
            | nil =>
              have : Node.orFresh Node.nil = Node.node cl0 cf0 cb0 := h0 ▸ hch
              simp [Node.orFresh, Node.fresh, Node.node.injEq] at this
              exact this.2.1.symm
            | node cl cf cb =>
              have hl := hlet i
              rw [h0, Node.letterInv_node] at hl
              have : Node.orFresh (Node.node cl cf cb) = Node.node cl0 cf0 cb0 := h0 ▸ hch
              simp [Node.orFresh, Node.node.injEq] at this
              rw [← this.2.1]
              exact hl.2.2.1
          refine ⟨?_, ?_, hcf0, hterm', hlet'⟩
          · rw [Node.maxFreq_best_irrel cl' cf0 (max cb0 ret) cb0, hmax', hchmax, ← hchf0]
          · exact le_trans hret (le_max_right _ _)
        · rw [Function.update_noteq fun h => hic (Fin.succ_injective 26 h)]
          exact hlet i
    · rw [Node.maxFreq_node, Node.maxFreq_node, update_comp Node.maxFreq l c.succ]
      have hv : Node.maxFreq (Node.node cl' cf0 (max cb0 ret)) =
          max (Node.maxFreq (l c.succ)) (max cb0 ret) := by
        rw [Node.maxFreq_best_irrel cl' cf0 (max cb0 ret) cb0, hmax', hchmax, ← hchf0]
        omega
      rw [hv, sup_update_max, Nat.max_assoc]
    · intro w
      cases w with
      | nil =>
        have hne : (0 : Fin 27) ≠ c.succ := Ne.symm (Fin.succ_ne_zero c)
        simp [Node.freqOf, Function.update_noteq hne]
      | cons d v =>
        by_cases hdc : d = c
        · subst hdc
          have h1 : Node.freqOf (Node.node cl' cf0 (max cb0 ret)) v =
              Node.freqOf (Node.node cl' cf0 cb0) v :=
            Node.freqOf_best_irrel cl' cf0 cf0 (max cb0 ret) cb0 v
          simp only [Node.freqOf, Function.update_same, h1, hfreq' v, hchfreq v,
            List.cons.injEq, true_and]
        · have hne : d.succ ≠ c.succ := fun h => hdc (Fin.succ_injective 26 h)
          simp only [Node.freqOf, Function.update_noteq hne, List.cons.injEq]
          rw [if_neg fun h => hdc h.1]
          omega

/-! ### The root invariant through construction -/

theorem rootInv_fresh : rootInv Node.fresh :=
  ⟨rfl, rfl, rfl, Node.innerInv_fresh⟩

/-- One `insert_recur` call preserves the root invariant and bumps exactly
the inserted sentence's end-frequency. -/
theorem insert_recur_spec (r : Node) (key : Word) (h : rootInv r) :
    rootInv (insert_recur r key) ∧
    Node.maxFreq (insert_recur r key) =
      max (Node.maxFreq r) (insert_recur_aux r key).2 ∧
    ∀ w, Node.freqOf (insert_recur r key) w =
      Node.freqOf r w + (if w = key then 1 else 0) := by
  obtain ⟨hnil, hf, hb, hinner⟩ := h
  cases r with
  | nil => simp [Node.isNil] at hnil
  | node l f b =>
    obtain ⟨l', ret, heq, hinner', hmax', hret, hfreq'⟩ := insert_aux_spec key l f b hinner
    have h1 : insert_recur (Node.node l f b) key = Node.node l' f b := by
      rw [insert_recur, heq]
    have h2 : (insert_recur_aux (Node.node l f b) key).2 = ret := by
      rw [heq]
    rw [h1, h2]
    exact ⟨⟨rfl, hf, hb, hinner'⟩, hmax', hfreq'⟩

theorem foldl_insert_spec (l : List Word) :
    ∀ (r : Node), rootInv r →
    rootInv (l.foldl insert_recur r) ∧
    ∀ w, Node.freqOf (l.foldl insert_recur r) w = Node.freqOf r w + l.count w := by
  induction l with
  | nil =>
    intro r h
    exact ⟨h, fun w => by simp⟩
  | cons key rest ih =>
    intro r h
    obtain ⟨h1, _, h3⟩ := insert_recur_spec r key h
    obtain ⟨ih1, ih2⟩ := ih (insert_recur r key) h1
    refine ⟨ih1, fun w => ?_⟩
    rw [List.foldl_cons, ih2 w, h3 w, List.count_cons]
    by_cases hw : w = key
    · subst hw
      rw [if_pos rfl, if_pos (by simp)]
      omega
    · have hkw : ¬ key = w := fun hc => hw hc.symm
      rw [if_neg hw, if_neg (by simp [hkw])]
      omega

/-- The constructed trie satisfies the root invariant. -/
theorem catsTrie_rootInv (sentences : List Word) : rootInv (catsTrie sentences) :=
  (foldl_insert_spec sentences Node.fresh rootInv_fresh).1

/-- The constructed trie stores precisely the corpus occurrence counts. -/
theorem catsTrie_freqOf (sentences : List Word) (w : Word) :
    Node.freqOf (catsTrie sentences) w = sentences.count w := by
  have h := (foldl_insert_spec sentences Node.fresh rootInv_fresh).2 w
  rw [catsTrie, h, Node.freqOf_fresh]
  omega

/-! ### Invariant transfer lemmas -/

namespace Node

theorem bestOpt_none_iff (n : Node) : n.bestOpt = none ↔ n.isNil = true := by
  cases n <;> simp [bestOpt, isNil]

theorem bestOpt_some_iff (n : Node) (v : Nat) :
    n.bestOpt = some v ↔ n.isNil = false ∧ n.bestField = v := by
  cases n <;> simp [bestOpt, isNil, bestField]

theorem freqOpt_none_iff (n : Node) : n.freqOpt = none ↔ n.isNil = true := by
  cases n <;> simp [freqOpt, isNil]

theorem termInv_maxFreq {n : Node} (h : termInv n) : n.maxFreq = n.freqField := by
  cases n with
  | nil => rfl
  | node l f b => exact (maxFreq_leaf l f b h.2.2).trans rfl

theorem letterInv_dest {n : Node} (h : letterInv n) (hn : n.isNil = false) :
    n.bestField = n.maxFreq ∧ 1 ≤ n.bestField ∧ n.freqField = 0 ∧ innerInv n := by
  cases n with
  | nil => simp [isNil] at hn
  | node l f b =>
    rw [letterInv_node] at h
    exact ⟨h.1, h.2.1, h.2.2.1,
      (innerInv_node l f b).mpr ⟨h.2.2.2.1, h.2.2.2.2⟩⟩

theorem letterInv_best_eq {n : Node} (h : letterInv n) : n.bestField = n.maxFreq := by
  cases hn : n.isNil with
  | true => rw [eq_nil_of_isNil hn]; rfl
  | false => exact (letterInv_dest h hn).1

theorem termInv_aggAll {n : Node} (h : termInv n) : aggAll n := by
  cases n with
  | nil => trivial
  | node l f b =>
    refine ⟨?_, fun i => ?_⟩
    · rw [maxFreq_leaf l f b h.2.2]
      exact h.1
    · rw [eq_nil_of_isNil (h.2.2 i)]
      trivial

theorem letterInv_aggAll {n : Node} (h : letterInv n) : aggAll n := by
  induction n with
  | nil => trivial
  | node l f b ih =>
    rw [letterInv_node] at h
    refine ⟨h.1, fun i => ?_⟩
    refine Fin.cases ?_ ?_ i
    · exact termInv_aggAll h.2.2.2.1
    · intro j
      exact ih j.succ (h.2.2.2.2 j)

end Node

theorem catsTrie_aggAll (sentences : List Word) (i : Fin 27) :
    Node.aggAll ((catsTrie sentences).getLink i) := by
  obtain ⟨hterm, hlet⟩ := (catsTrie_rootInv sentences).2.2.2
  refine Fin.cases ?_ ?_ i
  · exact Node.termInv_aggAll hterm
  · intro j
    exact Node.letterInv_aggAll (hlet j)

/-! ### Correctness of the greedy descent -/

/-- On any node whose children satisfy the structural invariants and whose
subtree contains at least one sentence, the greedy descent returns the
accumulated word extended by a completion whose end-frequency attains the
subtree maximum, and no other maximal completion is lexicographically
smaller. -/
theorem descend_spec (n : Node) :
    Node.innerInv n → n.freqField = 0 → 1 ≤ n.maxFreq →
    ∀ (m : Int) (w : Word),
    ∃ w', autoCompleteAux n m w = some (w ++ w') ∧
      Node.freqOf n w' = n.maxFreq ∧
      ∀ v, Node.freqOf n v = n.maxFreq → ¬ List.Lex (· < ·) v w' := by
  induction n with
  | nil => intro _ _ hm; simp [Node.maxFreq] at hm
  | node l f b ih =>
    intro hinv hf hm m w
    obtain ⟨hterm, hlet⟩ := (Node.innerInv_node l f b).mp hinv
    simp only [Node.freqField] at hf
    subst hf
    have hbest : ∀ i : Fin 26, (l i.succ).bestField = Node.maxFreq (l i.succ) := by
      intro i
      exact Node.letterInv_best_eq (hlet i)
    have htf : Node.maxFreq (l 0) = (l 0).freqField := Node.termInv_maxFreq hterm
    have hM : Node.maxFreq (Node.node l 0 b) =
        max ((l 0).freqField)
          (Finset.univ.sup fun i : Fin 26 => Node.maxFreq (l i.succ)) := by
      rw [Node.maxFreq_node, sup27_split (fun i => Node.maxFreq (l i)), htf]
      simp
    by_cases hall : ∀ i : Fin 26, (l i.succ).isNil = true
    · -- no letter children: line 99 returns the accumulated word
      have hc : ((List.finRange 26).all fun i => (l i.succ).isNil) = true :=
        List.all_eq_true.mpr fun i _ => hall i
      have hred : autoCompleteAux (Node.node l 0 b) m w = some w := by
        simp [autoCompleteAux, hc]
      have hsup0 : (Finset.univ.sup fun i : Fin 26 => Node.maxFreq (l i.succ)) = 0 := by
        refine Nat.le_antisymm (Finset.sup_le fun i _ => ?_) (Nat.zero_le _)
        rw [Node.eq_nil_of_isNil (hall i)]
        exact le_rfl
      have hmax : Node.maxFreq (Node.node l 0 b) = (l 0).freqField := by
        rw [hM, hsup0]
        exact max_eq_left (Nat.zero_le _)
      refine ⟨[], by simpa using hred, ?_, ?_⟩
      · rw [hmax]
        rfl
      · intro v _
        exact List.Lex.not_nil_right _ v
    · -- some letter child exists: the scan selects a champion
      push_neg at hall
      obtain ⟨i0, hi0⟩ := hall
      have hi0' : (l i0.succ).isNil = false := by
        cases h : (l i0.succ).isNil
        · rfl
        · exact absurd h hi0
      have hc : ((List.finRange 26).all fun i => (l i.succ).isNil) = false := by
        cases h : (List.finRange 26).all fun i => (l i.succ).isNil
        · rfl
        · exact absurd (List.all_eq_true.mp h i0 (List.mem_finRange i0)) (by
            rw [hi0']
            simp)
      obtain ⟨j, hj⟩ : ∃ j, (bestScan fun i => (l i.succ).bestOpt).2 = some j := by
        cases hs : (bestScan fun i => (l i.succ).bestOpt).2 with
        | some j => exact ⟨j, rfl⟩
        | none =>
          have := (bestScan_none_iff fun i => (l i.succ).bestOpt).mp hs i0
          rw [Node.bestOpt_none_iff] at this
          rw [this] at hi0'
          cases hi0'
      obtain ⟨v, hv, hv1⟩ := bestScan_champion (fun i => (l i.succ).bestOpt) j hj
      obtain ⟨hjnil, hjbest⟩ := (Node.bestOpt_some_iff (l j.succ) v).mp hv
      have hjmax : Node.maxFreq (l j.succ) = v := by rw [← hbest j, hjbest]
      have hsupv : (Finset.univ.sup fun i : Fin 26 => Node.maxFreq (l i.succ)) = v := by
        refine Nat.le_antisymm (Finset.sup_le fun i _ => ?_) ?_
        · cases hni : (l i.succ).isNil with
          | true =>
            rw [Node.eq_nil_of_isNil hni]
            exact Nat.zero_le v
          | false =>
            have hbo : (l i.succ).bestOpt = some ((l i.succ).bestField) :=
              (Node.bestOpt_some_iff _ _).mpr ⟨hni, rfl⟩
            have := bestScan_ub (fun i => (l i.succ).bestOpt) i _ hbo
            rw [← hv1] at this
            have hle : (l i.succ).bestField ≤ v := by exact_mod_cast this
            rw [hbest i] at hle
            exact hle
        · exact Finset.le_sup_of_le (Finset.mem_univ j) (le_of_eq hjmax.symm)
      have hjpos : 1 ≤ v := by
        have := (Node.letterInv_dest (hlet j) hjnil).2.1
        rw [hjbest] at this
        exact this
      cases h0 : (l 0).freqOpt with
      | some tf =>
        have h0f : (l 0).freqField = tf := by
          cases hl0 : l 0 with
          | nil => rw [hl0] at h0; cases h0
          | node tl tfa tba =>
            rw [hl0] at h0
            cases h0
            rfl
        by_cases hstop : (tf : Int) ≥ (bestScan fun i => (l i.succ).bestOpt).1
        · -- terminator at least as frequent as the best child: stop here
          have hred : autoCompleteAux (Node.node l 0 b) m w = some w := by
            simp [autoCompleteAux, hc, h0, hj, hstop]
          have hvtf : v ≤ tf := by
            rw [← hv1] at hstop
            exact_mod_cast hstop
          have hmax : Node.maxFreq (Node.node l 0 b) = tf := by
            rw [hM, hsupv, h0f]
            exact max_eq_left hvtf
          refine ⟨[], by simpa using hred, ?_, ?_⟩
          · rw [hmax]
            exact h0f ▸ rfl
          · intro u _
            exact List.Lex.not_nil_right _ u
        · -- the best child strictly beats the terminator: descend into it
          have hred : autoCompleteAux (Node.node l 0 b) m w =
              autoCompleteAux (l j.succ) (bestScan fun i => (l i.succ).bestOpt).1
                (w ++ [j]) := by
            simp [autoCompleteAux, hc, h0, hj, hstop]
          have htfv : tf < v := by
            rw [← hv1] at hstop
            omega
          have hmax : Node.maxFreq (Node.node l 0 b) = v := by
            rw [hM, hsupv, h0f]
            exact max_eq_right (le_of_lt htfv)
          obtain ⟨hjb, hjp, hjf, hjinner⟩ := Node.letterInv_dest (hlet j) hjnil
          obtain ⟨w'', hw1, hw2, hw3⟩ := ih j.succ hjinner hjf (by rw [hjmax]; exact hjpos)
            (bestScan fun i => (l i.succ).bestOpt).1 (w ++ [j])
          refine ⟨j :: w'', ?_, ?_, ?_⟩
          · rw [hred, hw1]
            simp
          · show Node.freqOf (l j.succ) w'' = _
            rw [hw2, hjmax, hmax]
          · intro u hu
            rw [hmax] at hu
            cases u with
            | nil =>
              have : (l 0).freqField = v := hu
              omega
            | cons d urest =>
              have hufreq : Node.freqOf (l d.succ) urest = v := hu
              have hdnil : (l d.succ).isNil = false := by
                cases hnd : (l d.succ).isNil with
                | true =>
                  rw [Node.eq_nil_of_isNil hnd] at hufreq
                  simp [Node.freqOf] at hufreq
                  omega
                | false => rfl
              have hdle : Node.maxFreq (l d.succ) = v := by
                refine Nat.le_antisymm ?_ ?_
                · have hbo : (l d.succ).bestOpt = some ((l d.succ).bestField) :=
                    (Node.bestOpt_some_iff _ _).mpr ⟨hdnil, rfl⟩
                  have := bestScan_ub (fun i => (l i.succ).bestOpt) d _ hbo
                  rw [← hv1] at this
                  have hle : (l d.succ).bestField ≤ v := by exact_mod_cast this
                  rw [hbest d] at hle
                  exact hle
                · rw [← hufreq]
                  exact Node.freqOf_le_maxFreq urest (l d.succ)
              have hjd : ¬ d < j := by
                intro hdj
                have hbo : (l d.succ).bestOpt = some ((l d.succ).bestField) :=
                  (Node.bestOpt_some_iff _ _).mpr ⟨hdnil, rfl⟩
                have hlt := bestScan_earlier_lt (fun i => (l i.succ).bestOpt) j hj d hdj
                  _ hbo
                rw [← hv1] at hlt
                have : (l d.succ).bestField < v := by exact_mod_cast hlt
                rw [hbest d, hdle] at this
                omega
              intro hlex
              cases hlex with
              | cons hrest =>
                have : Node.freqOf (l j.succ) urest = Node.maxFreq (l j.succ) := by
                  rw [hjmax]
                  exact hufreq
                exact hw3 urest this hrest
              | rel hdj => exact hjd hdj
      | none =>
        -- no terminator: never stop here, descend into the champion child
        have hl0 : l 0 = Node.nil := by
          have := (Node.freqOpt_none_iff (l 0)).mp h0
          exact Node.eq_nil_of_isNil this
        have hred : autoCompleteAux (Node.node l 0 b) m w =
            autoCompleteAux (l j.succ) (bestScan fun i => (l i.succ).bestOpt).1
              (w ++ [j]) := by
          simp [autoCompleteAux, hc, h0, hj]
        have hmax : Node.maxFreq (Node.node l 0 b) = v := by
          rw [hM, hsupv, hl0]
          show max Node.nil.freqField v = v
          simp [Node.freqField]
        obtain ⟨hjb, hjp, hjf, hjinner⟩ := Node.letterInv_dest (hlet j) hjnil
        obtain ⟨w'', hw1, hw2, hw3⟩ := ih j.succ hjinner hjf (by rw [hjmax]; exact hjpos)
          (bestScan fun i => (l i.succ).bestOpt).1 (w ++ [j])
        refine ⟨j :: w'', ?_, ?_, ?_⟩
        · rw [hred, hw1]
          simp
        · show Node.freqOf (l j.succ) w'' = _
          rw [hw2, hjmax, hmax]
        · intro u hu
          rw [hmax] at hu
          cases u with
          | nil =>
            have hnil0 : Node.freqOf (Node.node l 0 b) ([] : Word) = (l 0).freqField := rfl
            rw [hnil0, hl0] at hu
            simp [Node.freqField] at hu
            omega
          | cons d urest =>
            have hufreq : Node.freqOf (l d.succ) urest = v := hu
            have hdnil : (l d.succ).isNil = false := by
              cases hnd : (l d.succ).isNil with
              | true =>
                rw [Node.eq_nil_of_isNil hnd] at hufreq
                simp [Node.freqOf] at hufreq
                omega
              | false => rfl
            have hdle : Node.maxFreq (l d.succ) = v := by
              refine Nat.le_antisymm ?_ ?_
              · have hbo : (l d.succ).bestOpt = some ((l d.succ).bestField) :=
                  (Node.bestOpt_some_iff _ _).mpr ⟨hdnil, rfl⟩
                have := bestScan_ub (fun i => (l i.succ).bestOpt) d _ hbo
                rw [← hv1] at this
                have hle : (l d.succ).bestField ≤ v := by exact_mod_cast this
                rw [hbest d] at hle
                exact hle
              · rw [← hufreq]
                exact Node.freqOf_le_maxFreq urest (l d.succ)
            have hjd : ¬ d < j := by
              intro hdj
              have hbo : (l d.succ).bestOpt = some ((l d.succ).bestField) :=
                (Node.bestOpt_some_iff _ _).mpr ⟨hdnil, rfl⟩
              have hlt := bestScan_earlier_lt (fun i => (l i.succ).bestOpt) j hj d hdj
                _ hbo
              rw [← hv1] at hlt
              have : (l d.succ).bestField < v := by exact_mod_cast hlt
              rw [hbest d, hdle] at this
              omega
            intro hlex
            cases hlex with
            | cons hrest =>
              have : Node.freqOf (l j.succ) urest = Node.maxFreq (l j.succ) := by
                rw [hjmax]
                exact hufreq
              exact hw3 urest this hrest
            | rel hdj => exact hjd hdj

/-! ### Locating the prompt node -/

theorem findNode_letterInv :
    ∀ (p : Word) (c : Letter) (n m : Node), Node.innerInv n →
    findNode n (c :: p) = some m → Node.letterInv m ∧ m.isNil = false := by
  intro p
  induction p with
  | nil =>
    intro c n m hinv hfind
    cases hch : n.getLink c.succ with
    | nil => rw [findNode, hch] at hfind; cases hfind
    | node cl cf cb =>
      rw [findNode, hch] at hfind
      simp only [findNode, Option.some.injEq] at hfind
      subst hfind
      have : Node.letterInv (n.getLink c.succ) := hinv.2 c
      rw [hch] at this
      exact ⟨this, rfl⟩
  | cons c' rest ih =>
    intro c n m hinv hfind
    cases hch : n.getLink c.succ with
    | nil => rw [findNode, hch] at hfind; cases hfind
    | node cl cf cb =>
      rw [findNode, hch] at hfind
      have hl : Node.letterInv (n.getLink c.succ) := hinv.2 c
      rw [hch] at hl
      exact ih c' (Node.node cl cf cb) m (Node.letterInv_innerInv hl) hfind

theorem findNode_freqOf :
    ∀ (p : Word) (n m : Node), findNode n p = some m →
    ∀ w, Node.freqOf n (p ++ w) = Node.freqOf m w := by
  intro p
  induction p with
  | nil =>
    intro n m hfind w
    rw [findNode, Option.some.injEq] at hfind
    subst hfind
    rfl
  | cons c rest ih =>
    intro n m hfind w
    cases hch : n.getLink c.succ with
    | nil => rw [findNode, hch] at hfind; cases hfind
    | node cl cf cb =>
      rw [findNode, hch] at hfind
      cases n with
      | nil => simp [Node.getLink] at hch
      | node l f b =>
        have hl : l c.succ = Node.node cl cf cb := hch
        have h1 : Node.freqOf (Node.node l f b) ((c :: rest) ++ w) =
            Node.freqOf (l c.succ) (rest ++ w) := rfl
        rw [h1, hl]
        exact ih (Node.node cl cf cb) m hfind w

theorem maxFreq_catsTrie_pos (sentences : List Word) (hne : sentences ≠ []) :
    1 ≤ Node.maxFreq (catsTrie sentences) := by
  obtain ⟨s, hs⟩ := List.exists_mem_of_ne_nil sentences hne
  have h1 : 1 ≤ sentences.count s := List.count_pos_iff.mpr hs
  have h2 : sentences.count s = Node.freqOf (catsTrie sentences) s :=
    (catsTrie_freqOf sentences s).symm
  exact le_trans (h2 ▸ h1) (Node.freqOf_le_maxFreq s (catsTrie sentences))

/-- C1 (amended): full functional correctness of `autoComplete` over a
nonempty corpus: any returned sentence belongs to the corpus, extends the
prompt, attains the maximum occurrence count among corpus sentences
extending the prompt, and is lexicographically least among those attaining
it.  (The nonemptiness hypothesis is forced by the empty-corpus
counterexample, where the empty prompt yields the empty string.) -/
theorem autoComplete_correct (sentences : List Word) (prompt w : Word)
    (hne : sentences ≠ [])
    (h : autoComplete (catsTrie sentences) prompt = some w) :
    w ∈ sentences ∧ prompt <+: w ∧
    (∀ v ∈ sentences, prompt <+: v → sentences.count v ≤ sentences.count w) ∧
    (∀ v ∈ sentences, prompt <+: v → sentences.count v = sentences.count w →
      ¬ List.Lex (· < ·) v w) := by
  obtain ⟨hrnil, hrf, hrb, hrinner⟩ := catsTrie_rootInv sentences
  cases hfind : findNode (catsTrie sentences) prompt with
  | none => rw [autoComplete, hfind] at h; cases h
  | some n =>
    have h2 : autoCompleteAux n (-1) prompt = some w := by
      rw [autoComplete, hfind] at h
      exact h
    have hnode : Node.innerInv n ∧ n.freqField = 0 ∧ 1 ≤ n.maxFreq := by
      cases prompt with
      | nil =>
        rw [findNode, Option.some.injEq] at hfind
        subst hfind
        exact ⟨hrinner, hrf, maxFreq_catsTrie_pos sentences hne⟩
      | cons c rest =>
        obtain ⟨hl, hnil⟩ :=
          findNode_letterInv rest c (catsTrie sentences) n hrinner hfind
        obtain ⟨hb, hp, hf, hinner⟩ := Node.letterInv_dest hl hnil
        exact ⟨hinner, hf, hb ▸ hp⟩
    obtain ⟨w', hred, hfr, hmin⟩ := descend_spec n hnode.1 hnode.2.1 hnode.2.2 (-1) prompt
    rw [hred, Option.some.injEq] at h2
    subst h2
    have hcw : sentences.count (prompt ++ w') = n.maxFreq := by
      rw [← catsTrie_freqOf sentences, findNode_freqOf prompt (catsTrie sentences) n hfind, hfr]
    refine ⟨?_, List.prefix_append prompt w', ?_, ?_⟩
    · rw [← List.count_pos_iff, hcw]
      exact hnode.2.2
    · intro v _ hpre
      obtain ⟨v', rfl⟩ := hpre
      rw [hcw, ← catsTrie_freqOf sentences,
        findNode_freqOf prompt (catsTrie sentences) n hfind]
      exact Node.freqOf_le_maxFreq v' n
    · intro v _ hpre hcnt
      obtain ⟨v', rfl⟩ := hpre
      rw [hcw] at hcnt
      rw [← catsTrie_freqOf sentences,
        findNode_freqOf prompt (catsTrie sentences) n hfind] at hcnt
      rw [lex_append_left_iff]
      exact hmin v' hcnt

/-! ### The single-step behaviour of the greedy descent -/


theorem aux_extends :
    ∀ (n : Node) (m : Int) (w r : Word), autoCompleteAux n m w = some r →
    ∃ t, r = w ++ t := by
  intro n
  induction n with
  | nil => intro m w r h; cases h
  | node l f b ih =>
    intro m w r h
    by_cases hall : ((List.finRange 26).all fun i => (l i.succ).isNil) = true
    · have hred : autoCompleteAux (Node.node l f b) m w = some w := by
        simp [autoCompleteAux, hall]
      rw [hred, Option.some.injEq] at h
      exact ⟨[], by simp [← h]⟩
    · rw [Bool.not_eq_true] at hall
      cases h0 : (l 0).freqOpt with
      | some tf =>
        by_cases hstop : (tf : Int) ≥ (bestScan fun i => (l i.succ).bestOpt).1
        · have hred : autoCompleteAux (Node.node l f b) m w = some w := by
            simp [autoCompleteAux, hall, h0, hstop]
          rw [hred, Option.some.injEq] at h
          exact ⟨[], by simp [← h]⟩
        · cases hj : (bestScan fun i => (l i.succ).bestOpt).2 with
          | none =>
            have hred : autoCompleteAux (Node.node l f b) m w = none := by
              simp [autoCompleteAux, hall, h0, hstop, hj]
            rw [hred] at h
            cases h
          | some j =>
            have hred : autoCompleteAux (Node.node l f b) m w =
                autoCompleteAux (l j.succ)
                  (bestScan fun i => (l i.succ).bestOpt).1 (w ++ [j]) := by
              simp [autoCompleteAux, hall, h0, hstop, hj]
            rw [hred] at h
            obtain ⟨t, ht⟩ := ih j.succ _ _ _ h
            exact ⟨j :: t, by simpa using ht⟩
      | none =>
        cases hj : (bestScan fun i => (l i.succ).bestOpt).2 with
        | none =>
          have hred : autoCompleteAux (Node.node l f b) m w = none := by
            simp [autoCompleteAux, hall, h0, hj]
          rw [hred] at h
          cases h
        | some j =>
          have hred : autoCompleteAux (Node.node l f b) m w =
              autoCompleteAux (l j.succ)
                (bestScan fun i => (l i.succ).bestOpt).1 (w ++ [j]) := by
            simp [autoCompleteAux, hall, h0, hj]
          rw [hred] at h
          obtain ⟨t, ht⟩ := ih j.succ _ _ _ h
          exact ⟨j :: t, by simpa using ht⟩

/-- C4: at every node with at least one letter child, the greedy descent
stops (returning the accumulated word) exactly when a terminator child at
least as frequent as the best child aggregate exists, and otherwise
continues into the child with the smallest letter index among those
attaining the maximum aggregate. -/
theorem autoCompleteAux_step (n : Node)
    (hch : ∃ i : Fin 26, (n.getLink i.succ).isNil = false) (m : Int) (w : Word) :
    StepSpec n m w := by
  obtain ⟨i0, hi0⟩ := hch
  cases n with
  | nil => simp [Node.getLink, Node.isNil] at hi0
  | node l f b =>
    simp only [Node.getLink] at hi0
    simp only [StepSpec, stepM, Node.getLink]
    have hc : ((List.finRange 26).all fun i => (l i.succ).isNil) = false := by
      cases h : (List.finRange 26).all fun i => (l i.succ).isNil
      · rfl
      · exact absurd (List.all_eq_true.mp h i0 (List.mem_finRange i0)) (by
          rw [hi0]
          simp)
    obtain ⟨j, hj⟩ : ∃ j, (bestScan fun i => (l i.succ).bestOpt).2 = some j := by
      cases hs : (bestScan fun i => (l i.succ).bestOpt).2 with
      | some j => exact ⟨j, rfl⟩
      | none =>
        have := (bestScan_none_iff fun i => (l i.succ).bestOpt).mp hs i0
        rw [Node.bestOpt_none_iff] at this
        rw [this] at hi0
        cases hi0
    obtain ⟨v, hv, hv1⟩ := bestScan_champion (fun i => (l i.succ).bestOpt) j hj
    obtain ⟨hjnil, hjbest⟩ := (Node.bestOpt_some_iff (l j.succ) v).mp hv
    have hMv : (Finset.univ.sup fun i : Fin 26 => (l i.succ).bestField) = v := by
      refine Nat.le_antisymm (Finset.sup_le fun i _ => ?_) ?_
      · cases hni : (l i.succ).isNil with
        | true =>
          rw [Node.eq_nil_of_isNil hni]
          exact Nat.zero_le v
        | false =>
          have hbo : (l i.succ).bestOpt = some ((l i.succ).bestField) :=
            (Node.bestOpt_some_iff _ _).mpr ⟨hni, rfl⟩
          have := bestScan_ub (fun i => (l i.succ).bestOpt) i _ hbo
          rw [← hv1] at this
          exact_mod_cast this
      · exact Finset.le_sup_of_le (Finset.mem_univ j) (le_of_eq hjbest.symm)
    constructor
    · rintro ⟨ht0, htle⟩
      cases hl0 : l 0 with
      | nil => rw [hl0] at ht0; simp [Node.isNil] at ht0
      | node tl tf tb =>
        rw [hl0] at htle
        rw [hMv] at htle
        have hstop : (tf : Int) ≥ (bestScan fun i => (l i.succ).bestOpt).1 := by
          rw [← hv1]
          exact_mod_cast htle
        simp [autoCompleteAux, hc, hl0, Node.freqOpt, hstop]
    · intro hcase
      have hstopf : autoCompleteAux (Node.node l f b) m w =
          autoCompleteAux (l j.succ)
            (bestScan fun i => (l i.succ).bestOpt).1 (w ++ [j]) := by
        rcases hcase with h0 | hlt
        · simp [autoCompleteAux, hc, Node.freqOpt, hj,
            show l 0 = Node.nil from Node.eq_nil_of_isNil h0]
        · cases hl0 : l 0 with
          | nil => simp [autoCompleteAux, hc, hl0, Node.freqOpt, hj]
          | node tl tf tb =>
            rw [hl0, hMv] at hlt
            have htf : (l 0).freqOpt = some tf := by rw [hl0]; rfl
            have hstop : ¬ (tf : Int) ≥ (bestScan fun i => (l i.succ).bestOpt).1 := by
              rw [← hv1]
              simp only [Node.freqField] at hlt
              exact_mod_cast not_le.mpr hlt
            simp [autoCompleteAux, hc, htf, hstop, hj]
      refine ⟨j, hjnil, by rw [hjbest, hMv], ?_, ?_, ?_, ?_⟩
      · intro k hk
        cases hnk : (l k.succ).isNil with
        | true => exact Or.inl rfl
        | false =>
          refine Or.inr ?_
          have hbo : (l k.succ).bestOpt = some ((l k.succ).bestField) :=
            (Node.bestOpt_some_iff _ _).mpr ⟨hnk, rfl⟩
          have hlt := bestScan_earlier_lt (fun i => (l i.succ).bestOpt) j hj k hk _ hbo
          rw [← hv1] at hlt
          rw [hMv]
          exact_mod_cast hlt
      · intro k
        cases hnk : (l k.succ).isNil with
        | true =>
          rw [Node.eq_nil_of_isNil hnk]
          exact Nat.zero_le _
        | false =>
          have hbo : (l k.succ).bestOpt = some ((l k.succ).bestField) :=
            (Node.bestOpt_some_iff _ _).mpr ⟨hnk, rfl⟩
          have := bestScan_ub (fun i => (l i.succ).bestOpt) k _ hbo
          rw [← hv1] at this
          rw [hMv]
          exact_mod_cast this
      · rw [hstopf, hMv, hv1]
      · rw [hstopf]
        intro heq
        obtain ⟨t, ht⟩ := aux_extends _ _ _ _ heq
        have hlen := congrArg List.length ht
        simp at hlen

/-! ### Termination as fuel bounds -/



theorem insertAuxFuel_le :
    ∀ (key : Word) (n : Node) (fuel : Nat), key.length ≤ fuel →
    insertAuxFuel fuel n key = some (insert_recur_aux n key) := by
  intro key
  induction key with
  | nil =>
    intro n fuel _
    cases fuel <;> cases n <;> rfl
  | cons c rest ih =>
    intro n fuel hle
    cases fuel with
    | zero => simp at hle
    | succ fuel' =>
      have hrest : rest.length ≤ fuel' := by
        simp at hle
        omega
      cases n with
      | nil => rfl
      | node l f b =>
        have h1 : insertAuxFuel (fuel' + 1) (Node.node l f b) (c :: rest) =
            match insertAuxFuel fuel' (l c.succ).orFresh rest with
            | none => none
            | some (Node.nil, _) => some (Node.nil, 0)
            | some (Node.node cl cf cb, sub) =>
              some (Node.node (Function.update l c.succ
                (Node.node cl cf (if sub > cb then sub else cb))) f b,
                if sub > cb then sub else cb) := rfl
        rw [h1, ih (l c.succ).orFresh fuel' hrest, insert_recur_aux]
        cases insert_recur_aux (l c.succ).orFresh rest with
        | mk n2 s2 => cases n2 <;> rfl

theorem autoCompleteAuxFuel_le :
    ∀ (n : Node) (fuel : Nat) (m : Int) (w : Word), n.depth ≤ fuel →
    autoCompleteAuxFuel fuel n m w = some (autoCompleteAux n m w) := by
  intro n
  induction n with
  | nil => intro fuel m w _; cases fuel <;> rfl
  | node l f b ih =>
    intro fuel m w hle
    cases fuel with
    | zero =>
      rw [Node.depth] at hle
      omega
    | succ fuel' =>
      have hch : ∀ i : Fin 27, (l i).depth ≤ fuel' := by
        intro i
        rw [Node.depth] at hle
        have hsup : (l i).depth ≤ Finset.univ.sup fun i : Fin 27 => (l i).depth :=
          Finset.le_sup_of_le (Finset.mem_univ i) le_rfl
        omega
      by_cases hall : ((List.finRange 26).all fun i => (l i.succ).isNil) = true
      · have h1 : autoCompleteAuxFuel (fuel' + 1) (Node.node l f b) m w = some (some w) := by
          simp [autoCompleteAuxFuel, hall]
        have h2 : autoCompleteAux (Node.node l f b) m w = some w := by
          simp [autoCompleteAux, hall]
        rw [h1, h2]
      · rw [Bool.not_eq_true] at hall
        cases h0 : (l 0).freqOpt with
        | some tf =>
          by_cases hstop : (tf : Int) ≥ (bestScan fun i => (l i.succ).bestOpt).1
          · have h1 : autoCompleteAuxFuel (fuel' + 1) (Node.node l f b) m w =
                some (some w) := by
              simp [autoCompleteAuxFuel, hall, h0, hstop]
            have h2 : autoCompleteAux (Node.node l f b) m w = some w := by
              simp [autoCompleteAux, hall, h0, hstop]
            rw [h1, h2]
          · cases hj : (bestScan fun i => (l i.succ).bestOpt).2 with
            | none =>
              have h1 : autoCompleteAuxFuel (fuel' + 1) (Node.node l f b) m w =
                  some none := by
                simp [autoCompleteAuxFuel, hall, h0, hstop, hj]
              have h2 : autoCompleteAux (Node.node l f b) m w = none := by
                simp [autoCompleteAux, hall, h0, hstop, hj]
              rw [h1, h2]
            | some j =>
              have h1 : autoCompleteAuxFuel (fuel' + 1) (Node.node l f b) m w =
                  autoCompleteAuxFuel fuel' (l j.succ)
                    (bestScan fun i => (l i.succ).bestOpt).1 (w ++ [j]) := by
                simp [autoCompleteAuxFuel, hall, h0, hstop, hj]
              have h2 : autoCompleteAux (Node.node l f b) m w =
                  autoCompleteAux (l j.succ)
                    (bestScan fun i => (l i.succ).bestOpt).1 (w ++ [j]) := by
                simp [autoCompleteAux, hall, h0, hstop, hj]
              rw [h1, h2]
              exact ih j.succ fuel' _ _ (hch j.succ)
        | none =>
          cases hj : (bestScan fun i => (l i.succ).bestOpt).2 with
          | none =>
            have h1 : autoCompleteAuxFuel (fuel' + 1) (Node.node l f b) m w =
                some none := by
              simp [autoCompleteAuxFuel, hall, h0, hj]
            have h2 : autoCompleteAux (Node.node l f b) m w = none := by
              simp [autoCompleteAux, hall, h0, hj]
            rw [h1, h2]
          | some j =>
            have h1 : autoCompleteAuxFuel (fuel' + 1) (Node.node l f b) m w =
                autoCompleteAuxFuel fuel' (l j.succ)
                  (bestScan fun i => (l i.succ).bestOpt).1 (w ++ [j]) := by
              simp [autoCompleteAuxFuel, hall, h0, hj]
            have h2 : autoCompleteAux (Node.node l f b) m w =
                autoCompleteAux (l j.succ)
                  (bestScan fun i => (l i.succ).bestOpt).1 (w ++ [j]) := by
              simp [autoCompleteAux, hall, h0, hj]
            rw [h1, h2]
            exact ih j.succ fuel' _ _ (hch j.succ)

/-! ### The query as a state-passing computation -/



theorem findNodeRun_eq : ∀ (p : Word) (n : Node), findNodeRun n p = (findNode n p, n) := by
  intro p
  induction p with
  | nil => intro n; rfl
  | cons c rest ih =>
    intro n
    cases n with
    | nil => rfl
    | node l f b =>
      cases hch : l c.succ with
      | nil =>
        have hg : (Node.node l f b).getLink c.succ = Node.nil := hch
        simp [findNodeRun, findNode, hg]
      | node cl cf cb =>
        have hg : (Node.node l f b).getLink c.succ = Node.node cl cf cb := hch
        simp only [findNodeRun, findNode, hg, ih, Prod.mk.injEq]
        refine ⟨trivial, ?_⟩
        show (Node.node l f b).setLink c.succ (Node.node cl cf cb) = Node.node l f b
        rw [Node.setLink, ← hch, Function.update_eq_self]

theorem autoCompleteAuxRun_eq :
    ∀ (n : Node) (m : Int) (w : Word),
    autoCompleteAuxRun n m w = (autoCompleteAux n m w, n) := by
  intro n
  induction n with
  | nil => intro m w; rfl
  | node l f b ih =>
    intro m w
    by_cases hall : ((List.finRange 26).all fun i => (l i.succ).isNil) = true
    · simp [autoCompleteAuxRun, autoCompleteAux, hall]
    · rw [Bool.not_eq_true] at hall
      cases h0 : (l 0).freqOpt with
      | some tf =>
        by_cases hstop : (tf : Int) ≥ (bestScan fun i => (l i.succ).bestOpt).1
        · simp [autoCompleteAuxRun, autoCompleteAux, hall, h0, hstop]
        · cases hj : (bestScan fun i => (l i.succ).bestOpt).2 with
          | none => simp [autoCompleteAuxRun, autoCompleteAux, hall, h0, hstop, hj]
          | some j =>
            have h1 : autoCompleteAuxRun (Node.node l f b) m w =
                ((autoCompleteAuxRun (l j.succ)
                    (bestScan fun i => (l i.succ).bestOpt).1 (w ++ [j])).1,
                  Node.node (Function.update l j.succ
                    (autoCompleteAuxRun (l j.succ)
                      (bestScan fun i => (l i.succ).bestOpt).1 (w ++ [j])).2) f b) := by
              simp [autoCompleteAuxRun, hall, h0, hstop, hj]
            have h2 : autoCompleteAux (Node.node l f b) m w =
                autoCompleteAux (l j.succ)
                  (bestScan fun i => (l i.succ).bestOpt).1 (w ++ [j]) := by
              simp [autoCompleteAux, hall, h0, hstop, hj]
            rw [h1, h2, ih j.succ]
            rw [Function.update_eq_self]
      | none =>
        cases hj : (bestScan fun i => (l i.succ).bestOpt).2 with
        | none => simp [autoCompleteAuxRun, autoCompleteAux, hall, h0, hj]
        | some j =>
          have h1 : autoCompleteAuxRun (Node.node l f b) m w =
              ((autoCompleteAuxRun (l j.succ)
                  (bestScan fun i => (l i.succ).bestOpt).1 (w ++ [j])).1,
                Node.node (Function.update l j.succ
                  (autoCompleteAuxRun (l j.succ)
                    (bestScan fun i => (l i.succ).bestOpt).1 (w ++ [j])).2) f b) := by
            simp [autoCompleteAuxRun, hall, h0, hj]
          have h2 : autoCompleteAux (Node.node l f b) m w =
              autoCompleteAux (l j.succ)
                (bestScan fun i => (l i.succ).bestOpt).1 (w ++ [j]) := by
            simp [autoCompleteAux, hall, h0, hj]
          rw [h1, h2, ih j.succ]
          rw [Function.update_eq_self]

theorem updateAt_self :
    ∀ (p : Word) (n m : Node), findNode n p = some m → updateAt n p m = n := by
  intro p
  induction p with
  | nil =>
    intro n m h
    rw [findNode, Option.some.injEq] at h
    rw [updateAt, h]
  | cons c rest ih =>
    intro n m h
    cases n with
    | nil =>
      rw [findNode] at h
      simp [Node.getLink] at h
    | node l f b =>
      cases hch : l c.succ with
      | nil =>
        have hg : (Node.node l f b).getLink c.succ = Node.nil := hch
        rw [findNode, hg] at h
        cases h
      | node cl cf cb =>
        have hg : (Node.node l f b).getLink c.succ = Node.node cl cf cb := hch
        rw [findNode, hg] at h
        have h2 : findNode (Node.node cl cf cb) rest = some m := h
        rw [updateAt, hg]
        show (Node.node l f b).setLink c.succ
          (updateAt (Node.node cl cf cb) rest m) = Node.node l f b
        rw [ih (Node.node cl cf cb) m h2]
        show (Node.node l f b).setLink c.succ (Node.node cl cf cb) = Node.node l f b
        rw [Node.setLink, ← hch, Function.update_eq_self]

theorem autoCompleteRun_eq (t : Node) (p : Word) :
    autoCompleteRun t p = (autoComplete t p, t) := by
  rw [autoCompleteRun, findNodeRun_eq]
  cases hfind : findNode t p with
  | none => simp [autoComplete, hfind]
  | some n =>
    simp only [autoCompleteAuxRun_eq]
    rw [autoComplete, hfind]
    exact Prod.ext rfl (updateAt_self p t n hfind)

/-! ### Reading off the aggregate equation -/

theorem aggAll_bestField {n : Node} (h : Node.aggAll n) : n.bestField = n.maxFreq := by
  cases n with
  | nil => simp [Node.bestField, Node.maxFreq]
  | node l f b => exact h.1

/-! ### Claim theorems -/

/-- C1 (counterexample): on the empty corpus, the empty prompt makes
`autoComplete` return the empty string, which is not a member of the
corpus, so the claim fails as stated at this input. -/
theorem autoComplete_empty_corpus_cex :
    autoComplete (catsTrie ([] : List Word)) [] = some [] ∧
    ([] : Word) ∉ ([] : List Word) := by
  constructor
  · decide
  · decide

/-- C1 (witness for the amended theorem), at the corpus `["a"]` with the
empty prompt, whose answer is `"a"`. -/
theorem autoComplete_correct_witness :
    [(0 : Letter)] ∈ [[(0 : Letter)]] ∧ ([] : Word) <+: [(0 : Letter)] ∧
    (∀ v ∈ [[(0 : Letter)]], ([] : Word) <+: v →
      List.count v [[(0 : Letter)]] ≤ List.count [(0 : Letter)] [[(0 : Letter)]]) ∧
    (∀ v ∈ [[(0 : Letter)]], ([] : Word) <+: v →
      List.count v [[(0 : Letter)]] = List.count [(0 : Letter)] [[(0 : Letter)]] →
      ¬ List.Lex (· < ·) v [(0 : Letter)]) :=
  autoComplete_correct [[0]] [] [0] (by decide) (by decide)

/-- C2 (counterexample): after inserting `["a"]` the root has
`best_sub_frequency = 0` while the maximum end-frequency in its subtree is
1, so the aggregate invariant fails at the root. -/
theorem root_aggregate_cex : ¬ Node.aggAll (catsTrie [[(0 : Letter)]]) := by
  intro h
  exact absurd (aggAll_bestField h) (by decide)

/-- C2 (amended): after any construction the root's own
`best_sub_frequency` stays 0, and every node strictly below the root has
`best_sub_frequency` equal to the maximum end-frequency over the
terminator nodes in its subtree. -/
theorem aggregate_invariant_amended (sentences : List Word) :
    (catsTrie sentences).bestField = 0 ∧
    ∀ i : Fin 27, Node.aggAll ((catsTrie sentences).getLink i) :=
  ⟨(catsTrie_rootInv sentences).2.2.1, catsTrie_aggAll sentences⟩

/-- C3 (divergence evaluation): on the empty corpus with the empty prompt
the code returns the empty string rather than the absent result demanded
by the specification and by the code's own comment. -/
theorem autoComplete_empty_corpus_eval :
    autoComplete (catsTrie ([] : List Word)) [] = some [] := by
  decide

/-- C4 (witness): at the root of the trie for `["a", "b"]` with the empty
accumulated word. -/
theorem autoCompleteAux_step_witness :
    StepSpec (catsTrie [[(0 : Letter)], [(1 : Letter)]]) (-1) [] :=
  autoCompleteAux_step (catsTrie [[(0 : Letter)], [(1 : Letter)]])
    ⟨0, by decide⟩ (-1) []

/-- C5: after constructing `CatsTrie` from any sequence of sentences,
every node other than the root — i.e. every node of every child subtree of
the root — has `best_sub_frequency` equal to the maximum end-frequency
over the terminator nodes in its subtree. -/
theorem aggregate_invariant_nonroot (sentences : List Word) (i : Fin 27) :
    Node.aggAll ((catsTrie sentences).getLink i) :=
  catsTrie_aggAll sentences i

/-- C6: for every corpus, the root's `best_sub_frequency` is exactly 0
after construction: the bottom-up fix-up only ever writes to the child the
insertion descends into, never to the root. -/
theorem root_best_sub_frequency_zero (sentences : List Word) :
    (catsTrie sentences).bestField = 0 :=
  (catsTrie_rootInv sentences).2.2.1

/-- C7: on the example corpus of the source file, the prompt `"ab"`
completes to `"abazacy"`. -/
theorem autoComplete_example_one :
    autoComplete (catsTrie exampleSentences) [0, 1] =
      some [0, 1, 0, 25, 0, 2, 24] := by
  decide

/-- C8: on the corpus `["a", "a", "aa"]`, the prompt `"a"` completes to
`"a"`: the located node's terminator has end-frequency 2, at least the
best child aggregate 1, so the descent stops at the shorter match. -/
theorem autoComplete_example_four :
    autoComplete (catsTrie tieSentences) [0] = some [0] ∧
    Node.freqOf (catsTrie tieSentences) [0] = 2 ∧
    (((catsTrie tieSentences).getLink (0 : Fin 26).succ).getLink 0).freqField = 2 ∧
    (((catsTrie tieSentences).getLink (0 : Fin 26).succ).getLink
      (0 : Fin 26).succ).bestField = 1 := by
  refine ⟨by decide, by decide, by decide, by decide⟩

/-- C9: both operations terminate within an explicit budget: insertion
needs exactly one recursive step per letter of the inserted sentence, and
the greedy descent needs at most the height of the tree, so the
fuel-instrumented versions never report fuel exhaustion at those budgets
and agree with the recursive definitions. -/
theorem operations_terminate :
    (∀ (n : Node) (key : Word),
      insertAuxFuel key.length n key = some (insert_recur_aux n key)) ∧
    (∀ (n : Node) (m : Int) (w : Word),
      autoCompleteAuxFuel n.depth n m w = some (autoCompleteAux n m w)) :=
  ⟨fun n key => insertAuxFuel_le key n key.length le_rfl,
   fun n m w => autoCompleteAuxFuel_le n n.depth m w le_rfl⟩

/-- C10: the query is a pure read.  In state-passing form it hands back
the trie unchanged, its result is the plain `autoComplete` result, and a
second identical query against the handed-back trie returns the identical
result. -/
theorem autoComplete_pure_frame (t : Node) (p : Word) :
    (autoCompleteRun t p).2 = t ∧
    (autoCompleteRun t p).1 = autoComplete t p ∧
    (autoCompleteRun ((autoCompleteRun t p).2) p).1 = (autoCompleteRun t p).1 := by
  simp [autoCompleteRun_eq]
